import Mathlib

/-!
Verification of the shape-algebra core of the `nda` multidimensional array
library against its specification.  The library header `array.h` is not part
of `src/` (only its test suite `src/test/shape.cpp` is), so the core
operations are modelled from the specification and pinned against the
concrete expectations recorded in the test suite.  A `dim` is modelled with
its three runtime integer fields; a shape is the ordered list of its dims
(the compile-time static/dynamic distinction of the C++ template parameters
is erased, except for `resolve`/`make_compact` where an unresolved stride is
an explicit `Option`).
-/

namespace nda

/-- Modelled from the spec (§3.1, `Dim`): a single resolved dimension
descriptor with integer fields `min`, `extent`, `stride`.  The C++
`dim<Min,Extent,Stride>` additionally carries compile-time copies of these
values; the model keeps the runtime values only. -/
structure dim where
  min : Int
  extent : Int
  stride : Int
  deriving DecidableEq, Repr

/-- Modelled from the spec (§3.1, `Shape`): a shape of rank R is the ordered
tuple of its R dims. -/
abbrev shape := List dim

/-- Modelled from the spec (§4.2): the flat offset of an index tuple is
`Σ dₖ.stride * iₖ`; `min` does not enter the offset. -/
def offset : shape → List Int → Int
  | [], _ => 0
  | _, [] => 0
  | d :: ds, x :: xs => d.stride * x + offset ds xs

/-- Modelled from the spec (§3.1): `size()` is the product of the extents. -/
def size (s : shape) : Int := (s.map dim.extent).prod

/-- Modelled from the spec (§3.1): the smaller endpoint of the interval of
offsets contributed by one dim, oriented by the sign of the stride. -/
def dim.flat_min (d : dim) : Int :=
  if 0 ≤ d.stride then d.stride * d.min else d.stride * (d.min + d.extent - 1)

/-- Modelled from the spec (§3.1): the larger endpoint of the interval of
offsets contributed by one dim, oriented by the sign of the stride. -/
def dim.flat_max (d : dim) : Int :=
  if 0 ≤ d.stride then d.stride * (d.min + d.extent - 1) else d.stride * d.min

/-- Modelled from the spec (§3.1): `flat_min()` of a shape sums the per-dim
minima. -/
def flat_min (s : shape) : Int := (s.map dim.flat_min).sum

/-- Modelled from the spec (§3.1): `flat_max()` of a shape sums the per-dim
maxima. -/
def flat_max (s : shape) : Int := (s.map dim.flat_max).sum

/-- Modelled from the spec (§3.1): `flat_extent() = flat_max - flat_min + 1`. -/
def flat_extent (s : shape) : Int := flat_max s - flat_min s + 1

/-- Modelled from the spec (§3.1): the compact predicate is the arithmetic
comparison `flat_extent() ≤ size()` (the spec couples `is_compact` and
`is_one_to_one` to the comparison of `flat_extent()` with `size()`; this
model reproduces every enabled `shape_number_theory` test case, and the
test case the suite leaves disabled with a TODO is exactly where the
comparison diverges from the extensional reading). -/
def is_compact (s : shape) : Bool := flat_extent s ≤ size s

/-- Modelled from the spec (§3.1): the one-to-one predicate is the
arithmetic comparison `size() ≤ flat_extent()` (see `is_compact`). -/
def is_one_to_one (s : shape) : Bool := size s ≤ flat_extent s

/-- Modelled from the spec (§4.1/§4.2): an index tuple is in range when each
component lies in its dimension's `[min, max]` interval; tuples of the wrong
rank are out of range. -/
def is_in_range : shape → List Int → Bool
  | [], [] => true
  | d :: ds, x :: xs =>
      (decide (d.min ≤ x) && decide (x ≤ d.min + d.extent - 1)) && is_in_range ds xs
  | _, _ => false

/-- Modelled from the spec (§4.2): the tuple of per-dimension minima,
`s.min()`. -/
def shape_min (s : shape) : List Int := s.map dim.min

/-- Modelled from the spec (§4.2): the tuple of per-dimension maxima,
`s.max()`. -/
def shape_max (s : shape) : List Int := s.map (fun d => d.min + d.extent - 1)

/-- Modelled from the spec (§3.1): the list of valid indices of one dim, in
increasing order: `min, min+1, …, min+extent-1`. -/
def dimRange (d : dim) : List Int :=
  (List.range d.extent.toNat).map (fun (n : Nat) => d.min + (n : Int))

/-- Modelled from the spec (§4.7): the index tuples of a shape in the default
traversal order of `for_all_indices`/`for_each_index`: dimension 0 is the
innermost (fastest varying) loop, dimension R-1 the outermost.  A rank-0
shape has the single empty tuple. -/
def indicesList : shape → List (List Int)
  | [] => [[]]
  | d :: ds => (indicesList ds).flatMap (fun t => (dimRange d).map (fun i => i :: t))

/-- Modelled from the spec (§4.7): `for_all_indices(s, f)` invokes `f` once
per index tuple, passing the components as separate arguments; the model
returns the invocation sequence. -/
def for_all_indices (s : shape) : List (List Int) := indicesList s

/-- Modelled from the spec (§4.7): `for_each_index(s, f)` performs the same
enumeration as `for_all_indices` but passes the tuple as one argument; the
model returns the invocation sequence. -/
def for_each_index (s : shape) : List (List Int) := indicesList s

/-- Multiset-with-order of offsets reached by a shape: the offset of every
index tuple of the domain, in traversal order. -/
def offset_list (s : shape) : List Int := (indicesList s).map (offset s)

/-- Restatement of the spec's extensional wording of `is_compact` (§3.1:
every offset in `[flat_min, flat_max]` is visited at least once by some
index), used to compare against the arithmetic `is_compact`. -/
def is_compact_spec (s : shape) : Prop :=
  ∀ o ∈ (List.range (flat_extent s).toNat).map (fun n => flat_min s + n), o ∈ offset_list s

/-- Restatement of the spec's extensional wording of `is_one_to_one` (§3.1:
no offset is visited twice), used to compare against the arithmetic
`is_one_to_one`. -/
def is_one_to_one_spec (s : shape) : Prop := (offset_list s).Nodup

instance (s : shape) : Decidable (is_compact_spec s) := by
  unfold is_compact_spec
  infer_instance

instance (s : shape) : Decidable (is_one_to_one_spec s) := by
  unfold is_one_to_one_spec
  infer_instance

/-- Modelled from the spec (§3.1/§4.3): a dimension whose stride may still be
unresolved (`none` plays the role of the `dynamic` sentinel). -/
structure udim where
  min : Int
  extent : Int
  stride : Option Int
  deriving DecidableEq, Repr

/-- Modelled from the spec (§4.3): a candidate stride `c` for a dim of extent
`e` is compatible with an already-resolved dim `(stride, extent)` when one of
the two flat spans nests within a single step of the other: either the
resolved dim's whole span `|stride|·extent` fits below `c`, or the candidate
dim's whole span `c·e` fits below `|stride|`.  (The spec's §4.3 prose about
non-overlapping intervals does not reproduce the outputs the spec itself
documents; this nesting test does, on every documented case.) -/
def strideOk (c e : Int) (p : Int × Int) : Bool := |p.1| * p.2 ≤ c || c * e ≤ |p.1|

/-- Conjunction of `strideOk` over every already-resolved dim. -/
def okAll (c e : Int) (ctx : List (Int × Int)) : Bool := ctx.all (strideOk c e)

/-- Modelled from the spec (§4.3): the candidate strides considered are 1 and
the flat span `|stride|·extent` of each already-resolved dim (clamped to at
least 1). -/
def candidates (ctx : List (Int × Int)) : List Int :=
  1 :: ctx.map (fun p => max 1 (|p.1| * p.2))

/-- Minimum of a list of integers (1 for the empty list, which does not occur
in `findStride`: the largest candidate is always acceptable). -/
def minList : List Int → Int
  | [] => 1
  | [x] => x
  | x :: y :: xs => min x (minList (y :: xs))

/-- Modelled from the spec (§4.3): the stride assigned to an unresolved dim of
extent `e` is the smallest acceptable candidate. -/
def findStride (e : Int) (ctx : List (Int × Int)) : Int :=
  minList ((candidates ctx).filter (fun c => okAll c e ctx))

/-- The `(stride, extent)` pairs of the dims of a list whose stride is already
known. -/
def knownDims (l : List udim) : List (Int × Int) :=
  l.filterMap (fun d => d.stride.map (fun s => (s, d.extent)))

/-- Modelled from the spec (§4.3): process the dims in dimension order; a dim
with a known stride keeps it, an unresolved dim receives `findStride` against
all dims whose stride is known at that point (earlier assignments and the
still-unprocessed known dims). -/
def resolveAux : List (Int × Int) → List udim → List dim
  | _, [] => []
  | ctx, d :: rest =>
    match d.stride with
    | some st => ⟨d.min, d.extent, st⟩ :: resolveAux (ctx ++ [(st, d.extent)]) rest
    | none =>
      let st := findStride d.extent (ctx ++ knownDims rest)
      ⟨d.min, d.extent, st⟩ :: resolveAux (ctx ++ [(st, d.extent)]) rest

/-- Modelled from the spec (§4.3): `s.resolve()` fills in every unresolved
stride. -/
def resolve (l : List udim) : List dim := resolveAux [] l

/-- Restatement of the spec's row-major auto-layout formula (§4.3:
`stride₀ = 1, strideₖ = strideₖ₋₁ · max(1, extentₖ₋₁)`), with accumulator `p`
for the next stride, used to compare against `resolve`. -/
def row_major : Int → List Int → List Int
  | _, [] => []
  | p, e :: es => p :: row_major (p * max 1 e) es

/-- Modelled from the spec (§4.5): `make_compact` keeps each dim's `min` and
`extent`, keeps the stride of the dims whose stride is statically fixed
(recorded here by the mask `static`), clears every other stride, and
resolves. -/
def make_compact (static : List Bool) (s : shape) : shape :=
  resolve (List.zipWith (fun (d : dim) (b : Bool) =>
    udim.mk d.min d.extent (if b then some d.stride else none)) s static)

/-- Modelled from the spec (§4.4, step 3): two adjacent dims whose strides
nest exactly (`d2.stride = d1.stride · d1.extent`) fuse into one dim with the
smaller stride, the product extent, and the min that makes the fused dim
reach exactly the offsets of the pair (`d1.min + d1.extent · d2.min`). -/
def fuse2 (d1 d2 : dim) : dim :=
  ⟨d1.min + d1.extent * d2.min, d1.extent * d2.extent, d1.stride⟩

/-- Modelled from the spec (§4.4): the exact fusibility test. -/
def canFuse (d1 d2 : dim) : Bool := d2.stride == d1.stride * d1.extent

/-- Modelled from the spec (§4.4): one fusing pass with explicit fuel (each
step consumes one unit; the list shrinks or its head is emitted). -/
def fuseGo : Nat → List dim → List dim
  | _, [] => []
  | _, [d] => [d]
  | 0, d1 :: d2 :: rest => d1 :: d2 :: rest
  | fuel + 1, d1 :: d2 :: rest =>
    if canFuse d1 d2 then fuseGo fuel (fuse2 d1 d2 :: rest)
    else d1 :: fuseGo fuel (d2 :: rest)

/-- Modelled from the spec (§4.4): fuse every fusible adjacent pair of the
(sorted) dim list, left to right, re-testing the fused dim against the next
one; the list length is enough fuel for the pass to run to completion. -/
def fuseDims (l : List dim) : List dim := fuseGo l.length l

/-- Modelled from the spec (§4.4, step 2): stable sort by ascending absolute
stride. -/
def sortDims (l : List dim) : List dim :=
  l.insertionSort (fun a b => |a.stride| ≤ |b.stride|)

/-- Modelled from the spec (§4.4, step 4): the stride given to the padding
dims appended to restore the rank; it is the flat span `|stride| · extent` of
the last fused dim (the value the documented examples pin down). -/
def padStride (l : List dim) : Int :=
  match l.getLast? with
  | none => 1
  | some d => |d.stride| * d.extent

/-- Modelled from the spec (§4.4): `dynamic_optimize_shape` sorts the dims by
absolute stride, fuses every exactly-nesting adjacent pair, and restores the
rank with `dim(0, 1, padStride)` padding.  (The spec's separate "trivial
bucket" for extent-1 dims with a global offset constant is not exactly
representable in a shape when the constant is not divisible by the leading
stride; keeping extent-1 dims in the sort/fuse pipeline reproduces every
documented output.) -/
def dynamic_optimize_shape (s : shape) : shape :=
  let fused := fuseDims (sortDims s)
  fused ++ List.replicate (s.length - fused.length) ⟨0, 1, padStride fused⟩

/-- Multiset of the offsets contributed by a single dim. -/
def dimOffsets (d : dim) : Multiset Int := ((dimRange d).map (fun i => d.stride * i) : List Int)

/-- One step of the multiset of reachable offsets: Minkowski-add the offsets
of one dim. -/
def addDim (d : dim) (acc : Multiset Int) : Multiset Int :=
  (dimOffsets d).bind (fun a => acc.map (a + ·))

/-- Multiset of the offsets reached by a shape, with multiplicities. -/
def offsetsM (s : shape) : Multiset Int := s.foldr addDim {0}

/-- Consecutive integers `a, a+1, …, a+n-1`. -/
def intRange (a : Int) (n : Nat) : List Int :=
  (List.range n).map (fun (k : Nat) => a + (k : Int))

/-- Error surface of the algorithms (§7): `copy`/`move` raise
`std::out_of_range`. -/
inductive alg_error where
  | out_of_range
  deriving DecidableEq, Repr

/-- Modelled from the spec (§4.9): `copy(src, dst)` first bound-checks that
`dst.shape()`'s min and max corners are in range of `src.shape()` (the
per-dimension interval form of "`src.shape` covers every index in
`dst.shape`"), raising `out_of_range` otherwise; then assigns
`dst(i) = src(i)` for each index `i` of `dst.shape()`, in traversal order.
Arrays are modelled as their shape plus a flat store `Int → α`. -/
def copy {α : Type} (ssrc : shape) (src : Int → α) (sdst : shape) (dst : Int → α) :
    Except alg_error (Int → α) :=
  if is_in_range ssrc (shape_min sdst) && is_in_range ssrc (shape_max sdst) then
    Except.ok ((for_each_index sdst).foldl
      (fun acc t => Function.update acc (offset sdst t) (src (offset ssrc t))) dst)
  else Except.error alg_error.out_of_range

/-- Modelled from the spec (§4.9): `move` is identical to `copy` but
move-assigns each element; on the pure values of the model, move-assignment
and copy-assignment coincide, so the model is the same function. -/
def move {α : Type} (ssrc : shape) (src : Int → α) (sdst : shape) (dst : Int → α) :
    Except alg_error (Int → α) :=
  if is_in_range ssrc (shape_min sdst) && is_in_range ssrc (shape_max sdst) then
    Except.ok ((for_each_index sdst).foldl
      (fun acc t => Function.update acc (offset sdst t) (src (offset ssrc t))) dst)
  else Except.error alg_error.out_of_range

/-- Modelled from the spec (§4.8): the value-fill of `assign(shape, value)`
writes `value` to the cell of every index of the shape and touches no other
cell of the raw storage; storage cell `n` of the allocation holds the element
at flat offset `flat_min + n`. -/
def assign {α : Type} (s : shape) (v : α) (store : Int → α) : Int → α :=
  (for_each_index s).foldl (fun acc t => Function.update acc (offset s t - flat_min s) v) store

/-- Number of cells of the raw storage (of length `flat_extent`) that still
hold their original value after an operation took `store` to `store2`. -/
def untouched_count {α : Type} [DecidableEq α] (s : shape) (store store2 : Int → α) : Nat :=
  (List.range (flat_extent s).toNat).countP
    (fun (n : Nat) => store2 ((n : Nat) : Int) = store ((n : Nat) : Int))

/-- Modelled from the spec (§3.1, `Interval`): a min/extent pair, the
cropping argument `range(lo, extent)`. -/
structure interval where
  min : Int
  extent : Int
  deriving DecidableEq, Repr

/-- Modelled from the spec (§4.8) and the `array_ref_crop_slice` test:
cropping with ranges keeps the rank and, per dimension, takes the range's
`min` and `extent` with the original dim's stride; coordinates stay
absolute. -/
def crop (s : shape) (rs : List interval) : shape :=
  List.zipWith (fun (d : dim) (r : interval) => dim.mk r.min r.extent d.stride) s rs

/-- Modelled from the spec (§4.8): an element access reads the base store at
the flat offset of the index tuple. -/
def read {α : Type} (base : Int → α) (s : shape) (t : List Int) : α := base (offset s t)

/-- Modelled from the spec (§3.1, `ArrayView`): a raw base pointer (possibly
null, modelled by `none`) plus a shape. -/
structure array_ref (α : Type) where
  base : Option (Int → α)
  shp : shape

/-- Modelled from the `array_ref_empty` test: an `array_ref` is empty when its
data pointer is null or its shape has no elements. -/
def array_ref.empty {α : Type} (r : array_ref α) : Bool :=
  r.base.isNone || decide (size r.shp = 0)

/-- Modelled from the `array_ref_empty` test: `set_shape(shape, offset)`
replaces the shape and advances the base pointer by `offset`; a null base
stays null. -/
def array_ref.set_shape {α : Type} (r : array_ref α) (s : shape) (off : Int) : array_ref α :=
  { base := r.base.map (fun b => fun o => b (o + off)), shp := s }

/-- Product of `max 1 eₖ` over a list of extents: the row-major accumulator. -/
def prodMax (es : List Int) : Int := (es.map (fun e => max 1 e)).prod

/-- The `(stride, extent)` context that `resolve` accumulates on an
all-unresolved dim list with extents `es`, starting from accumulated product
`p`: an extent `≤ 1` receives stride 1, any other extent receives the product
of `max 1 e` over the extents before it. -/
def chainCtx : Int → List Int → List (Int × Int)
  | _, [] => []
  | p, e :: es => ((if e ≤ 1 then 1 else p), e) :: chainCtx (p * max 1 e) es

/-- Strides assigned by `resolve` to an all-unresolved dim list whose extents
so far are `pre` and whose remaining extents are the second argument. -/
def autoStrides : List Int → List Int → List Int
  | _, [] => []
  | pre, e :: es => (if e ≤ 1 then 1 else prodMax pre) :: autoStrides (pre ++ [e]) es

/-- Product of the extents as a natural number. -/
def sizeNat (s : shape) : Nat := (s.map (fun d => d.extent.toNat)).prod

/-! ## Basic lemmas about the index domain -/

theorem mem_dimRange {d : dim} {i : Int} :
    i ∈ dimRange d ↔ d.min ≤ i ∧ i ≤ d.min + d.extent - 1 := by
  unfold dimRange
  rw [List.mem_map]
  constructor
  · rintro ⟨n, hn, rfl⟩
    rw [List.mem_range] at hn
    omega
  · rintro ⟨h1, h2⟩
    refine ⟨(i - d.min).toNat, List.mem_range.mpr (by omega), by omega⟩

theorem mem_indicesList {s : shape} {t : List Int} :
    t ∈ indicesList s ↔ is_in_range s t = true := by
  induction s generalizing t with
  | nil =>
    cases t with
    | nil => simp [indicesList, is_in_range]
    | cons x xs => simp [indicesList, is_in_range]
  | cons d ds ih =>
    cases t with
    | nil =>
      simp [indicesList, is_in_range, List.mem_flatMap]
    | cons x xs =>
      simp only [indicesList, List.mem_flatMap, List.mem_map, is_in_range, Bool.and_eq_true,
        decide_eq_true_eq]
      constructor
      · rintro ⟨t', ht', i, hi, hcons⟩
        cases hcons
        exact ⟨⟨mem_dimRange.mp hi |>.1, mem_dimRange.mp hi |>.2⟩, ih.mp ht'⟩
      · rintro ⟨⟨h1, h2⟩, h3⟩
        exact ⟨xs, ih.mpr h3, x, mem_dimRange.mpr ⟨h1, h2⟩, rfl⟩

theorem sum_map_length {β : Type} (l : List β) (c : Nat) :
    (l.map (fun _ => c)).sum = l.length * c := by
  induction l with
  | nil => simp
  | cons b l ih => simp [ih, Nat.succ_mul, Nat.add_comm]

theorem length_indicesList (s : shape) : (indicesList s).length = sizeNat s := by
  induction s with
  | nil => rfl
  | cons d ds ih =>
    simp only [indicesList, List.length_flatMap]
    calc (List.map (List.length ∘ fun t => (dimRange d).map (fun i => i :: t))
            (indicesList ds)).sum
        = (List.map (fun _ => d.extent.toNat) (indicesList ds)).sum := by
          apply congrArg
          apply List.map_congr_left
          intro t _
          simp [Function.comp, dimRange]
      _ = (indicesList ds).length * d.extent.toNat := sum_map_length _ _
      _ = sizeNat ds * d.extent.toNat := by rw [ih]
      _ = sizeNat (d :: ds) := by simp [sizeNat, Nat.mul_comm]

theorem nodup_dimRange (d : dim) : (dimRange d).Nodup := by
  unfold dimRange
  refine List.Nodup.map ?_ (List.nodup_range _)
  intro a b hab
  simpa using hab

theorem nodup_indicesList (s : shape) : (indicesList s).Nodup := by
  induction s with
  | nil => simp [indicesList]
  | cons d ds ih =>
    simp only [indicesList]
    rw [List.nodup_flatMap]
    constructor
    · intro t _
      refine List.Nodup.map ?_ (nodup_dimRange d)
      intro a b hab
      simpa using hab
    · refine List.Pairwise.imp ?_ ih
      intro t1 t2 hne
      simp only [Function.onFun, List.Disjoint]
      intro x hx1 hx2
      simp only [List.mem_map] at hx1 hx2
      obtain ⟨i, _, rfl⟩ := hx1
      obtain ⟨j, _, hj⟩ := hx2
      injection hj with h1 h2
      exact hne h2.symm

theorem size_eq_sizeNat {s : shape} (h : ∀ d ∈ s, 0 ≤ d.extent) :
    (sizeNat s : Int) = size s := by
  induction s with
  | nil => rfl
  | cons d ds ih =>
    have hd := h d (by simp)
    have hds := ih (fun x hx => h x (List.mem_cons_of_mem _ hx))
    simp only [sizeNat, size, List.map_cons, List.prod_cons] at *
    rw [Nat.cast_mul, Int.toNat_of_nonneg hd, hds]

/-! ## Flat bounds -/

theorem dim_flat_bounds {d : dim} {x : Int} (h1 : d.min ≤ x) (h2 : x ≤ d.min + d.extent - 1) :
    d.flat_min ≤ d.stride * x ∧ d.stride * x ≤ d.flat_max := by
  unfold dim.flat_min dim.flat_max
  by_cases hs : 0 ≤ d.stride
  · simp only [hs, if_true]
    exact ⟨mul_le_mul_of_nonneg_left h1 hs, mul_le_mul_of_nonneg_left h2 hs⟩
  · simp only [hs, if_false]
    have hs' : d.stride ≤ 0 := by omega
    exact ⟨mul_le_mul_of_nonpos_left h2 hs', mul_le_mul_of_nonpos_left h1 hs'⟩

theorem offset_bounds {s : shape} {t : List Int} (h : is_in_range s t = true) :
    flat_min s ≤ offset s t ∧ offset s t ≤ flat_max s := by
  induction s generalizing t with
  | nil =>
    cases t with
    | nil => simp [offset, flat_min, flat_max]
    | cons x xs => simp [is_in_range] at h
  | cons d ds ih =>
    cases t with
    | nil => simp [is_in_range] at h
    | cons x xs =>
      simp only [is_in_range, Bool.and_eq_true, decide_eq_true_eq] at h
      obtain ⟨⟨h1, h2⟩, h3⟩ := h
      have hd := dim_flat_bounds h1 h2
      have hr := ih h3
      simp only [offset, flat_min, flat_max, List.map_cons, List.sum_cons]
      constructor
      · exact add_le_add hd.1 hr.1
      · exact add_le_add hd.2 hr.2

theorem shape_min_in_range {s : shape} (h : ∀ d ∈ s, 1 ≤ d.extent) :
    is_in_range s (shape_min s) = true := by
  induction s with
  | nil => rfl
  | cons d ds ih =>
    simp only [shape_min, List.map_cons, is_in_range, Bool.and_eq_true, decide_eq_true_eq]
    refine ⟨⟨le_refl _, ?_⟩, ih (fun x hx => h x (List.mem_cons_of_mem _ hx))⟩
    have := h d (by simp)
    omega

theorem shape_max_in_range {s : shape} (h : ∀ d ∈ s, 1 ≤ d.extent) :
    is_in_range s (shape_max s) = true := by
  induction s with
  | nil => rfl
  | cons d ds ih =>
    simp only [shape_max, List.map_cons, is_in_range, Bool.and_eq_true, decide_eq_true_eq]
    refine ⟨⟨?_, le_refl _⟩, ih (fun x hx => h x (List.mem_cons_of_mem _ hx))⟩
    have := h d (by simp)
    omega

/-! ## Claim C2 (code bug): the arithmetic `is_one_to_one` is not injectivity -/

/-- C2: divergence witness for the claim that `is_one_to_one()` holds iff no
two distinct index tuples share an offset.  At the shape
`{{0,4,4},{0,4,4}}` — the very input the test suite leaves disabled with a
TODO pointing at the library's issue tracker — `is_one_to_one()` answers
`true`, yet the distinct in-range index tuples `(1,0)` and `(0,1)` map to the
same offset, so the enumeration of offsets is not duplicate-free. -/
theorem C2_one_to_one_divergence :
    is_one_to_one [⟨0,4,4⟩, ⟨0,4,4⟩] = true ∧
    is_in_range [⟨0,4,4⟩, ⟨0,4,4⟩] [1, 0] = true ∧
    is_in_range [⟨0,4,4⟩, ⟨0,4,4⟩] [0, 1] = true ∧
    ([1, 0] : List Int) ≠ [0, 1] ∧
    offset [⟨0,4,4⟩, ⟨0,4,4⟩] [1, 0] = offset [⟨0,4,4⟩, ⟨0,4,4⟩] [0, 1] ∧
    ¬ is_one_to_one_spec [⟨0,4,4⟩, ⟨0,4,4⟩] := by
  refine ⟨by decide, by decide, by decide, by decide, by decide, ?_⟩
  decide

/-- Validation of the model of `is_compact`/`is_one_to_one` against the four
shapes of the enabled `shape_number_theory` test: on each of them the
arithmetic predicates agree with the extensional ones, exactly as the test
asserts. -/
theorem number_theory_model_agreement :
    ((is_compact [⟨1,10,1⟩, ⟨3,5,10⟩] = true) ↔ is_compact_spec [⟨1,10,1⟩, ⟨3,5,10⟩]) ∧
    ((is_one_to_one [⟨1,10,1⟩, ⟨3,5,10⟩] = true) ↔ is_one_to_one_spec [⟨1,10,1⟩, ⟨3,5,10⟩]) ∧
    ((is_compact [⟨-1,10,5⟩, ⟨3,5,-1⟩] = true) ↔ is_compact_spec [⟨-1,10,5⟩, ⟨3,5,-1⟩]) ∧
    ((is_one_to_one [⟨-1,10,5⟩, ⟨3,5,-1⟩] = true) ↔ is_one_to_one_spec [⟨-1,10,5⟩, ⟨3,5,-1⟩]) ∧
    ((is_compact [⟨-2,10,6⟩, ⟨3,5,1⟩] = true) ↔ is_compact_spec [⟨-2,10,6⟩, ⟨3,5,1⟩]) ∧
    ((is_one_to_one [⟨-2,10,6⟩, ⟨3,5,1⟩] = true) ↔ is_one_to_one_spec [⟨-2,10,6⟩, ⟨3,5,1⟩]) ∧
    ((is_compact [⟨0,4,4⟩, ⟨0,4,2⟩, ⟨0,4,1⟩] = true) ↔
      is_compact_spec [⟨0,4,4⟩, ⟨0,4,2⟩, ⟨0,4,1⟩]) ∧
    ((is_one_to_one [⟨0,4,4⟩, ⟨0,4,2⟩, ⟨0,4,1⟩] = true) ↔
      is_one_to_one_spec [⟨0,4,4⟩, ⟨0,4,2⟩, ⟨0,4,1⟩]) := by
  decide

/-! ## Claim C10: null array_ref is empty -/

/-- C10: an `array_ref` constructed with a null data pointer reports
`empty() == true` although its shape has size 10, and it still reports
`empty() == true` after `set_shape` replaces the shape (with offset 3, as in
the test). -/
theorem C10_null_array_ref_empty :
    (array_ref.mk (Option.none : Option (Int → Int)) [⟨0,10,1⟩]).empty = true ∧
    size [(⟨0,10,1⟩ : dim)] = 10 ∧
    ((array_ref.mk (Option.none : Option (Int → Int)) [⟨0,10,1⟩]).set_shape
        [⟨3,3,1⟩] 3).empty = true := by
  refine ⟨rfl, by decide, rfl⟩

/-! ## Counterexample theorems for the corrected claims -/

/-- C1 counterexample: for the all-unresolved rank-2 shape with extents
`(2, 1)`, `resolve` assigns strides `{1, 1}` (the extent-1 dim reuses stride
1, which is safe, exactly as the disabled "small interleaved" test of the
suite documents), whereas the row-major formula
`stride₀ = 1, strideₖ = strideₖ₋₁·max(1,extentₖ₋₁)` demands `{1, 2}`. -/
theorem C1_row_major_counterexample :
    resolve [⟨0,2,none⟩, ⟨0,1,none⟩] = [⟨0,2,1⟩, ⟨0,1,1⟩] ∧
    row_major 1 [2, 1] = [1, 2] ∧
    resolve [⟨0,2,none⟩, ⟨0,1,none⟩] ≠
      List.zipWith (fun (d : udim) st => dim.mk d.min d.extent st)
        [⟨0,2,none⟩, ⟨0,1,none⟩] (row_major 1 [2, 1]) := by
  refine ⟨by decide, by decide, by decide⟩

/-- C5 counterexample: the result of `make_compact` need not be compact.  A
dim whose stride is statically fixed to 5 keeps it, and the result has
`flat_extent 11 > size 3`; and with no static strides, a shape with a
zero-extent dim resolves to strides `{1,1}` with `flat_extent 4 > size 0`. -/
theorem C5_make_compact_counterexample :
    (make_compact [true] [⟨0,3,5⟩] = [⟨0,3,5⟩] ∧
      is_compact (make_compact [true] [⟨0,3,5⟩]) = false) ∧
    is_compact (make_compact [false, false] [⟨0,0,9⟩, ⟨0,5,9⟩]) = false := by
  refine ⟨⟨by decide, by decide⟩, by decide⟩

/-- C7 counterexample: `assign` on the (sparse, but not one-to-one) shape
`{{0,4,4},{0,4,4}}` from a storage holding `7` everywhere leaves 18 cells
untouched, not `flat_extent() - size() = 25 - 16 = 9`: colliding index
tuples write the same cell, so only the 7 distinct offsets are touched. -/
theorem C7_untouched_counterexample :
    size [(⟨0,4,4⟩ : dim), ⟨0,4,4⟩] < flat_extent [⟨0,4,4⟩, ⟨0,4,4⟩] ∧
    untouched_count [⟨0,4,4⟩, ⟨0,4,4⟩] (fun _ => (7 : Int))
      (assign [⟨0,4,4⟩, ⟨0,4,4⟩] 3 (fun _ => 7)) = 18 ∧
    flat_extent [⟨0,4,4⟩, ⟨0,4,4⟩] - size [⟨0,4,4⟩, ⟨0,4,4⟩] = 9 := by
  refine ⟨by decide, by decide, by decide⟩

/-! ## Claim C3: traversal order and count -/

theorem flatMap_congr_fun {α β : Type} (l : List α) (f g : α → List β) (h : ∀ x, f x = g x) :
    l.flatMap f = l.flatMap g := by
  have hfg : f = g := funext h
  rw [hfg]

theorem range_mul_flatMap (a b : Nat) :
    (List.range b).flatMap (fun v => (List.range a).map (fun u => u + a * v)) =
      List.range (a * b) := by
  induction b with
  | zero => simp
  | succ n ih =>
    rw [List.range_succ, List.flatMap_append, ih, Nat.mul_succ, List.range_add]
    simp only [List.flatMap_cons, List.flatMap_nil, List.append_nil]
    congr 1
    apply List.map_congr_left
    intro u _
    omega

theorem offsets_scaled (s : shape) (c : Int) (hext : ∀ d ∈ s, 0 ≤ d.extent)
    (hs : s.map dim.stride = row_major c (s.map dim.extent)) :
    (indicesList s).map (offset s) =
      (List.range (sizeNat s)).map (fun (k : Nat) => offset s (shape_min s) + c * (k : Int)) := by
  induction s generalizing c with
  | nil =>
    have h1 : List.range 1 = [0] := rfl
    simp [indicesList, offset, sizeNat, shape_min, h1]
  | cons d ds ih =>
    simp only [List.map_cons, row_major, List.cons.injEq] at hs
    obtain ⟨hs1, hs2⟩ := hs
    have hext' : ∀ x ∈ ds, 0 ≤ x.extent := fun x hx => hext x (List.mem_cons_of_mem _ hx)
    have IH := ih (c * max 1 d.extent) hext' hs2
    have step1 : (indicesList (d :: ds)).map (offset (d :: ds)) =
        ((indicesList ds).map (offset ds)).flatMap
          (fun o => (List.range d.extent.toNat).map
            (fun (n : Nat) => d.stride * (d.min + (n : Int)) + o)) := by
      simp only [indicesList, List.map_flatMap, List.flatMap_map]
      apply flatMap_congr_fun
      intro t
      simp only [List.map_map, dimRange]
      apply List.map_congr_left
      intro n _
      simp [offset]
    rw [step1, IH, List.flatMap_map]
    have step2 : (List.range (sizeNat (d :: ds))).map
        (fun (k : Nat) => offset (d :: ds) (shape_min (d :: ds)) + c * (k : Int)) =
        (List.range (sizeNat ds)).flatMap
          (fun (v : Nat) => (List.range d.extent.toNat).map
            (fun (u : Nat) =>
              offset (d :: ds) (shape_min (d :: ds)) +
                c * ((u : Int) + (d.extent.toNat : Int) * (v : Int)))) := by
      have hsz : sizeNat (d :: ds) = d.extent.toNat * sizeNat ds := by
        simp [sizeNat]
      rw [hsz, ← range_mul_flatMap d.extent.toNat (sizeNat ds), List.map_flatMap]
      apply flatMap_congr_fun
      intro v
      rw [List.map_map]
      apply List.map_congr_left
      intro u _
      simp only [Function.comp]
      push_cast
      ring_nf
    rw [step2]
    apply flatMap_congr_fun
    intro v
    rcases Nat.eq_zero_or_pos d.extent.toNat with h0 | hpos
    · rw [h0]
      simp
    · have he1 : 1 ≤ d.extent := by omega
      have hcast : (d.extent.toNat : Int) = d.extent := Int.toNat_of_nonneg (by omega)
      have hmax : max 1 d.extent = d.extent := max_eq_right he1
      apply List.map_congr_left
      intro n _
      have hoff : offset (d :: ds) (shape_min (d :: ds)) =
          d.stride * d.min + offset ds (shape_min ds) := by
        simp [shape_min, offset]
      rw [hoff, hs1, hmax, hcast]
      ring

/-- C3: `for_all_indices` and `for_each_index` perform the same enumeration,
visiting each in-range index tuple exactly once (the enumeration is
duplicate-free, its members are exactly the in-range tuples, and its length
is `size()`, so a rank-0 shape gets exactly one invocation); with the default
order dimension 0 varies fastest, so on a shape with the resolved dense
(row-major) strides the flat offsets of successive invocations are the
consecutive integers starting at the offset of the min corner. -/
theorem C3_traversal :
    (∀ s : shape, for_each_index s = for_all_indices s) ∧
    for_all_indices ([] : shape) = [[]] ∧
    (∀ s : shape, (for_all_indices s).Nodup) ∧
    (∀ (s : shape) (t : List Int), t ∈ for_all_indices s ↔ is_in_range s t = true) ∧
    (∀ s : shape, (∀ d ∈ s, 0 ≤ d.extent) → ((for_all_indices s).length : Int) = size s) ∧
    (∀ s : shape, (∀ d ∈ s, 0 ≤ d.extent) →
      s.map dim.stride = row_major 1 (s.map dim.extent) →
      (for_all_indices s).map (offset s) = intRange (offset s (shape_min s)) (sizeNat s)) := by
  refine ⟨fun s => rfl, rfl, fun s => nodup_indicesList s, fun s t => mem_indicesList,
    fun s h => ?_, fun s h hrm => ?_⟩
  · rw [for_all_indices, length_indicesList, size_eq_sizeNat h]
  · rw [for_all_indices, offsets_scaled s 1 h hrm, intRange]
    apply List.map_congr_left
    intro k _
    ring

/-- C3 witness: the consecutive-offsets and exact-count parts applied to the
resolved `dense_shape<2>(10, 4)` of the `for_all_indices_2d` test. -/
theorem C3_traversal_witness :
    (for_all_indices [⟨0,10,1⟩, ⟨0,4,10⟩]).map (offset [⟨0,10,1⟩, ⟨0,4,10⟩]) =
      intRange (offset [⟨0,10,1⟩, ⟨0,4,10⟩] (shape_min [⟨0,10,1⟩, ⟨0,4,10⟩]))
        (sizeNat [⟨0,10,1⟩, ⟨0,4,10⟩]) ∧
    ((for_all_indices [(⟨0,10,1⟩ : dim), ⟨0,4,10⟩]).length : Int) =
      size [⟨0,10,1⟩, ⟨0,4,10⟩] := by
  exact ⟨C3_traversal.2.2.2.2.2 [⟨0,10,1⟩, ⟨0,4,10⟩] (by decide) (by decide),
    C3_traversal.2.2.2.2.1 [⟨0,10,1⟩, ⟨0,4,10⟩] (by decide)⟩

/-! ## Claim C6: copy and move boundary behaviour -/

theorem is_in_range_mono {ssrc sdst : shape} {t : List Int}
    (h1 : is_in_range ssrc (shape_min sdst) = true)
    (h2 : is_in_range ssrc (shape_max sdst) = true)
    (h3 : is_in_range sdst t = true) : is_in_range ssrc t = true := by
  induction sdst generalizing ssrc t with
  | nil =>
    cases ssrc with
    | nil =>
      cases t with
      | nil => rfl
      | cons x xs => simp [is_in_range] at h3
    | cons sd sds => simp [shape_min, is_in_range] at h1
  | cons dd dds ih =>
    cases ssrc with
    | nil => simp [shape_min, is_in_range] at h1
    | cons sd sds =>
      cases t with
      | nil => simp [is_in_range] at h3
      | cons x xs =>
        simp only [shape_min, shape_max, List.map_cons, is_in_range, Bool.and_eq_true,
          decide_eq_true_eq] at h1 h2 h3 ⊢
        obtain ⟨⟨h1a, h1b⟩, h1c⟩ := h1
        obtain ⟨⟨h2a, h2b⟩, h2c⟩ := h2
        obtain ⟨⟨h3a, h3b⟩, h3c⟩ := h3
        exact ⟨⟨by omega, by omega⟩, ih h1c h2c h3c⟩

theorem copy_corner_iff (ssrc sdst : shape) (hd : ∀ d ∈ sdst, 1 ≤ d.extent) :
    ((is_in_range ssrc (shape_min sdst) && is_in_range ssrc (shape_max sdst)) = true) ↔
    ∀ t, is_in_range sdst t = true → is_in_range ssrc t = true := by
  constructor
  · intro h t ht
    rw [Bool.and_eq_true] at h
    exact is_in_range_mono h.1 h.2 ht
  · intro h
    rw [Bool.and_eq_true]
    exact ⟨h _ (shape_min_in_range hd), h _ (shape_max_in_range hd)⟩

theorem foldl_update_not_mem {α β : Type} (l : List β) (k : β → Int) (g : β → α)
    (acc : Int → α) (o : Int) (h : o ∉ l.map k) :
    (l.foldl (fun a b => Function.update a (k b) (g b)) acc) o = acc o := by
  induction l generalizing acc with
  | nil => rfl
  | cons b l ih =>
    simp only [List.map_cons, List.mem_cons, not_or] at h
    simp only [List.foldl_cons]
    rw [ih _ h.2, Function.update_noteq h.1]

theorem foldl_update_read {α β : Type} (l : List β) (k : β → Int) (g : β → α)
    (acc : Int → α) (t : β) (ht : t ∈ l) (hnd : (l.map k).Nodup) :
    (l.foldl (fun a b => Function.update a (k b) (g b)) acc) (k t) = g t := by
  induction l generalizing acc with
  | nil => cases ht
  | cons b l ih =>
    simp only [List.map_cons, List.nodup_cons] at hnd
    rcases List.mem_cons.mp ht with rfl | htl
    · simp only [List.foldl_cons]
      rw [foldl_update_not_mem l k g _ _ hnd.1, Function.update_same]
    · simp only [List.foldl_cons]
      exact ih _ htl hnd.2

/-- C6: `copy(src, dst)` raises `out_of_range` exactly when `src.shape()`
does not cover every index of `dst.shape()`; when it does not raise, the
result holds `src(i)` at the offset of every index `i` of `dst.shape()`;
and `move` is the identical assignment (move-assignment coincides with
copy-assignment on the pure values of the model). -/
theorem C6_copy_move :
    ∀ {α : Type} (ssrc sdst : shape) (f g : Int → α),
      (∀ d ∈ sdst, 1 ≤ d.extent) →
      ((copy ssrc f sdst g = Except.error alg_error.out_of_range ↔
          ¬ ∀ t, is_in_range sdst t = true → is_in_range ssrc t = true) ∧
       move ssrc f sdst g = copy ssrc f sdst g ∧
       ((offset_list sdst).Nodup →
         ∀ (t : List Int) (res : Int → α), is_in_range sdst t = true →
           copy ssrc f sdst g = Except.ok res →
           res (offset sdst t) = f (offset ssrc t))) := by
  intro α ssrc sdst f g hd
  refine ⟨?_, rfl, ?_⟩
  · unfold copy
    by_cases hc : (is_in_range ssrc (shape_min sdst) && is_in_range ssrc (shape_max sdst)) = true
    · rw [if_pos hc]
      constructor
      · intro h
        cases h
      · intro hn
        exact absurd ((copy_corner_iff ssrc sdst hd).mp hc) hn
    · rw [if_neg hc]
      constructor
      · intro _ hall
        exact hc ((copy_corner_iff ssrc sdst hd).mpr hall)
      · intro _
        rfl
  · intro hnd t res ht hres
    unfold copy at hres
    by_cases hc : (is_in_range ssrc (shape_min sdst) && is_in_range ssrc (shape_max sdst)) = true
    · rw [if_pos hc] at hres
      injection hres with hres
      rw [← hres]
      exact foldl_update_read (for_each_index sdst) (offset sdst)
        (fun t => f (offset ssrc t)) g t (mem_indicesList.mpr ht) hnd
    · rw [if_neg hc] at hres
      cases hres

/-- C6 witness: the boundary equivalence and the element-wise assignment on a
concrete pair of 1-d shapes (source over `[0,3)`, destination over
`[1,3)`). -/
theorem C6_copy_move_witness :
    (copy [⟨0,3,1⟩] (fun (o : Int) => o) [⟨1,2,1⟩] (fun _ => 0) =
        Except.error alg_error.out_of_range ↔
      ¬ ∀ t, is_in_range [⟨1,2,1⟩] t = true → is_in_range [⟨0,3,1⟩] t = true) ∧
    move [⟨0,3,1⟩] (fun (o : Int) => o) [⟨1,2,1⟩] (fun _ => 0) =
      copy [⟨0,3,1⟩] (fun (o : Int) => o) [⟨1,2,1⟩] (fun _ => 0) ∧
    ((offset_list [⟨1,2,1⟩]).Nodup →
      ∀ (t : List Int) (res : Int → Int), is_in_range [⟨1,2,1⟩] t = true →
        copy [⟨0,3,1⟩] (fun (o : Int) => o) [⟨1,2,1⟩] (fun _ => 0) = Except.ok res →
        res (offset [⟨1,2,1⟩] t) = offset [⟨0,3,1⟩] t) :=
  C6_copy_move [⟨0,3,1⟩] [⟨1,2,1⟩] (fun (o : Int) => o) (fun _ => 0) (by decide)

/-! ## Claim C7: assign touches exactly the indexed cells -/

theorem foldl_update_const {α β : Type} (l : List β) (k : β → Int) (v : α)
    (acc : Int → α) (o : Int) :
    (l.foldl (fun a b => Function.update a (k b) v) acc) o =
      if o ∈ l.map k then v else acc o := by
  induction l generalizing acc with
  | nil => simp
  | cons b l ih =>
    simp only [List.foldl_cons, List.map_cons, List.mem_cons]
    rw [ih]
    by_cases h1 : o ∈ l.map k
    · simp [h1]
    · by_cases h2 : o = k b
      · subst h2
        simp [h1, Function.update_same]
      · simp [h1, h2, Function.update_noteq h2]

theorem countP_not_eq {γ : Type} (l : List γ) (p : γ → Bool) :
    l.countP (fun x => !p x) = l.length - l.countP p := by
  induction l with
  | nil => rfl
  | cons b l ih =>
    have h1 := List.countP_le_length p (l := l)
    rw [List.countP_cons, List.countP_cons, List.length_cons, ih]
    cases hb : p b
    all_goals simp [hb]
    omega

theorem countP_mem_eq_length {γ : Type} [DecidableEq γ] (L W : List γ) (hL : L.Nodup)
    (hW : W.Nodup) (hsub : ∀ x ∈ W, x ∈ L) :
    L.countP (fun x => decide (x ∈ W)) = W.length := by
  rw [List.countP_eq_length_filter]
  have hfn : (L.filter (fun x => decide (x ∈ W))).Nodup := hL.filter _
  have hfin : (L.filter (fun x => decide (x ∈ W))).toFinset = W.toFinset := by
    ext a
    simp only [List.mem_toFinset, List.mem_filter, decide_eq_true_eq]
    exact ⟨fun h => h.2, fun h => ⟨hsub a h, h⟩⟩
  calc (L.filter (fun x => decide (x ∈ W))).length
      = (L.filter (fun x => decide (x ∈ W))).toFinset.card :=
        (List.toFinset_card_of_nodup hfn).symm
    _ = W.toFinset.card := by rw [hfin]
    _ = W.length := List.toFinset_card_of_nodup hW

theorem sizeNat_pos {s : shape} (h : ∀ d ∈ s, 1 ≤ d.extent) : 0 < sizeNat s := by
  unfold sizeNat
  apply List.prod_pos
  intro a ha
  obtain ⟨d, hd, rfl⟩ := List.mem_map.mp ha
  have := h d hd
  omega

/-- C7 (amended): `assign(shape, value)` writes the value to the storage cell
of every in-range index and, provided the shape is one-to-one, leaves
exactly `flat_extent() - size()` cells of the raw storage untouched. -/
theorem C7_assign_sparse :
    ∀ {α : Type} [_inst : DecidableEq α] (s : shape) (a v : α),
      a ≠ v → (∀ d ∈ s, 1 ≤ d.extent) → (offset_list s).Nodup →
      ((∀ t, is_in_range s t = true →
          assign s v (fun _ => a) (offset s t - flat_min s) = v) ∧
       (untouched_count s (fun _ => a) (assign s v (fun _ => a)) : Int) =
          flat_extent s - size s) := by
  intro α inst s a v hav hext hnd
  have hwrite : ∀ o : Int, assign s v (fun _ => a) o =
      if o ∈ (indicesList s).map (fun t => offset s t - flat_min s) then v else a :=
    fun o => foldl_update_const (indicesList s) (fun t => offset s t - flat_min s) v _ o
  constructor
  · intro t ht
    rw [hwrite]
    exact if_pos (List.mem_map_of_mem _ (mem_indicesList.mpr ht))
  · set W : List Int := (indicesList s).map (fun t => offset s t - flat_min s) with hW
    have hWeq : W = (offset_list s).map (fun o => o - flat_min s) := by
      rw [hW, offset_list, List.map_map]
      rfl
    have hWnd : W.Nodup := by
      rw [hWeq]
      exact hnd.map (fun x y hxy => by omega)
    have hWbound : ∀ w ∈ W, 0 ≤ w ∧ w < flat_extent s := by
      intro w hw
      rw [hW] at hw
      obtain ⟨t, ht, rfl⟩ := List.mem_map.mp hw
      have hb := offset_bounds (mem_indicesList.mp ht)
      unfold flat_extent
      omega
    set WN : List Nat := W.map Int.toNat with hWN
    have hWNnd : WN.Nodup := by
      rw [hWN]
      refine List.Nodup.map_on ?_ hWnd
      intro x hx y hy hxy
      have hx0 := (hWbound x hx).1
      have hy0 := (hWbound y hy).1
      omega
    have hNsub : ∀ n ∈ WN, n ∈ List.range (flat_extent s).toNat := by
      intro n hn
      rw [hWN] at hn
      obtain ⟨w, hw, rfl⟩ := List.mem_map.mp hn
      have := hWbound w hw
      rw [List.mem_range]
      omega
    have hcount : (List.range (flat_extent s).toNat).countP (fun n => decide (n ∈ WN)) =
        WN.length :=
      countP_mem_eq_length _ _ (List.nodup_range _) hWNnd hNsub
    have hpred : ∀ n ∈ List.range (flat_extent s).toNat,
        ((decide (assign s v (fun _ => a) ((n : Nat) : Int) = a)) = true ↔
          (! decide ((n : Nat) ∈ WN)) = true) := by
      intro n hn
      rw [hwrite]
      by_cases hmem : ((n : Nat) : Int) ∈ W
      · have hmn : (n : Nat) ∈ WN := by
          rw [hWN]
          have hcast : (n : Nat) = (((n : Nat) : Int)).toNat := by omega
          rw [hcast]
          exact List.mem_map_of_mem _ hmem
        rw [if_pos hmem]
        simp [hmn, Ne.symm hav]
      · have hmn : (n : Nat) ∉ WN := by
          intro hcontra
          rw [hWN] at hcontra
          obtain ⟨w, hw, hwn⟩ := List.mem_map.mp hcontra
          have hw0 := (hWbound w hw).1
          have hweq : w = ((n : Nat) : Int) := by omega
          exact hmem (hweq ▸ hw)
        rw [if_neg hmem]
        simp [hmn]
    have hcongr : untouched_count s (fun _ => a) (assign s v (fun _ => a)) =
        (List.range (flat_extent s).toNat).countP (fun n => ! decide (n ∈ WN)) := by
      unfold untouched_count
      exact List.countP_congr hpred
    have hnot := countP_not_eq (List.range (flat_extent s).toNat) (fun n => decide (n ∈ WN))
    have hlenW : WN.length = sizeNat s := by
      rw [hWN, List.length_map, hW, List.length_map, length_indicesList]
    have hszpos : 0 < sizeNat s := sizeNat_pos hext
    have hszcast : (sizeNat s : Int) = size s :=
      size_eq_sizeNat (fun d hd => by have := hext d hd; omega)
    have hle : WN.length ≤ (List.range (flat_extent s).toNat).length := by
      rw [← hcount]
      exact List.countP_le_length _
    rw [List.length_range] at hle
    rw [hcongr, hnot, List.length_range, hcount, hlenW]
    rw [hlenW] at hle
    unfold flat_extent at *
    omega

/-- C7 witness: the fill and exact-untouched-count facts applied to the
sparse shape `{(-2,5,2),(4,10,20)}` of the `sparse_array` test (with storage
pre-filled with 7 and assigned value 3). -/
theorem C7_assign_sparse_witness :
    (∀ t, is_in_range [⟨-2,5,2⟩, ⟨4,10,20⟩] t = true →
        assign [⟨-2,5,2⟩, ⟨4,10,20⟩] (3 : Int) (fun _ => 7)
          (offset [⟨-2,5,2⟩, ⟨4,10,20⟩] t - flat_min [⟨-2,5,2⟩, ⟨4,10,20⟩]) = 3) ∧
    (untouched_count [⟨-2,5,2⟩, ⟨4,10,20⟩] (fun _ => (7 : Int))
        (assign [⟨-2,5,2⟩, ⟨4,10,20⟩] 3 (fun _ => 7)) : Int) =
      flat_extent [⟨-2,5,2⟩, ⟨4,10,20⟩] - size [⟨-2,5,2⟩, ⟨4,10,20⟩] :=
  C7_assign_sparse [⟨-2,5,2⟩, ⟨4,10,20⟩] 7 3 (by decide) (by decide) (by decide)

/-! ## Claim C8: size against flat_extent -/

/-- C8 (amended): for every shape with positive extents whose index map is
injective (one-to-one), `size() ≤ flat_extent()`: the `size()` distinct
offsets all lie in the window `[flat_min, flat_max]` of `flat_extent`
integers. -/
theorem C8_size_le_flat_extent :
    ∀ s : shape, (∀ d ∈ s, 1 ≤ d.extent) → (offset_list s).Nodup →
      size s ≤ flat_extent s := by
  intro s hext hnd
  have hlen : (offset_list s).length = sizeNat s := by
    rw [offset_list, List.length_map, length_indicesList]
  have hsub : (offset_list s).toFinset ⊆ Finset.Icc (flat_min s) (flat_max s) := by
    intro o ho
    rw [List.mem_toFinset] at ho
    obtain ⟨t, ht, rfl⟩ := List.mem_map.mp ho
    rw [Finset.mem_Icc]
    exact offset_bounds (mem_indicesList.mp ht)
  have hcard := Finset.card_le_card hsub
  rw [List.toFinset_card_of_nodup hnd, hlen, Int.card_Icc] at hcard
  have h1 : 0 < sizeNat s := sizeNat_pos hext
  have h2 : (sizeNat s : Int) = size s :=
    size_eq_sizeNat (fun d hd => by have := hext d hd; omega)
  unfold flat_extent
  omega

/-- C8 witness: the inequality applied to the 1-d strided shape
`dim(0,10,2)`. -/
theorem C8_size_le_flat_extent_witness :
    size [(⟨0,10,2⟩ : dim)] ≤ flat_extent [⟨0,10,2⟩] :=
  C8_size_le_flat_extent [⟨0,10,2⟩] (by decide) (by decide)

/-! ## Claim C9: cropping with ranges -/

theorem offset_crop {s : shape} {rs : List interval} (h : rs.length = s.length) :
    ∀ t, offset (crop s rs) t = offset s t := by
  induction s generalizing rs with
  | nil =>
    intro t
    cases rs with
    | nil => rfl
    | cons r rs' => simp at h
  | cons d ds ih =>
    intro t
    cases rs with
    | nil => simp at h
    | cons r rs' =>
      cases t with
      | nil => rfl
      | cons x xs =>
        have hlen : rs'.length = ds.length := by simpa using h
        have hih := ih hlen xs
        simp only [crop, List.zipWith_cons_cons, offset] at hih ⊢
        rw [hih]

theorem crop_maps : ∀ (s : shape) (rs : List interval), rs.length = s.length →
    (crop s rs).map dim.min = rs.map interval.min ∧
    (crop s rs).map dim.extent = rs.map interval.extent ∧
    (crop s rs).map dim.stride = s.map dim.stride := by
  intro s
  induction s with
  | nil =>
    intro rs h
    cases rs with
    | nil => exact ⟨rfl, rfl, rfl⟩
    | cons r rs' => simp at h
  | cons d ds ih =>
    intro rs h
    cases rs with
    | nil => simp at h
    | cons r rs' =>
      have hlen : rs'.length = ds.length := by simpa using h
      obtain ⟨h1, h2, h3⟩ := ih rs' hlen
      refine ⟨?_, ?_, ?_⟩
      · show r.min :: (crop ds rs').map dim.min = r.min :: rs'.map interval.min
        rw [h1]
      · show r.extent :: (crop ds rs').map dim.extent = r.extent :: rs'.map interval.extent
        rw [h2]
      · show d.stride :: (crop ds rs').map dim.stride = d.stride :: ds.map dim.stride
        rw [h3]

/-- C9: cropping an array with ranges keeps the rank and the absolute
coordinates: each cropped dimension takes the range's min and extent with
the original dimension's stride, and the view reads the same element as the
original at every index tuple; in particular the crop of the test,
`a(range<>(2,6), range<3,4>())` on the shape `{(0,8,1),(0,9,8)}`, has dims
`{(2,6,1),(3,4,8)}`. -/
theorem C9_crop_ranges :
    (∀ (s : shape) (rs : List interval), rs.length = s.length →
      ((crop s rs).length = s.length ∧
       (crop s rs).map dim.min = rs.map interval.min ∧
       (crop s rs).map dim.extent = rs.map interval.extent ∧
       (crop s rs).map dim.stride = s.map dim.stride ∧
       ∀ {α : Type} (base : Int → α) (t : List Int),
         read base (crop s rs) t = read base s t)) ∧
    crop [⟨0,8,1⟩, ⟨0,9,8⟩] [⟨2,6⟩, ⟨3,4⟩] = [⟨2,6,1⟩, ⟨3,4,8⟩] := by
  constructor
  · intro s rs h
    obtain ⟨h1, h2, h3⟩ := crop_maps s rs h
    refine ⟨?_, h1, h2, h3, ?_⟩
    · rw [crop, List.length_zipWith, h, Nat.min_self]
    · intro α base t
      unfold read
      rw [offset_crop h]
  · decide

/-- C9 witness: the universal part applied to the shape and ranges of the
`array_ref_crop_slice` test. -/
theorem C9_crop_ranges_witness :
    (crop [⟨0,8,1⟩, ⟨0,9,8⟩] [⟨2,6⟩, ⟨3,4⟩]).length = ([⟨0,8,1⟩, ⟨0,9,8⟩] : shape).length ∧
    (crop [⟨0,8,1⟩, ⟨0,9,8⟩] [⟨2,6⟩, ⟨3,4⟩]).map dim.min =
      ([⟨2,6⟩, ⟨3,4⟩] : List interval).map interval.min ∧
    (crop [⟨0,8,1⟩, ⟨0,9,8⟩] [⟨2,6⟩, ⟨3,4⟩]).map dim.extent =
      ([⟨2,6⟩, ⟨3,4⟩] : List interval).map interval.extent ∧
    (crop [⟨0,8,1⟩, ⟨0,9,8⟩] [⟨2,6⟩, ⟨3,4⟩]).map dim.stride =
      ([⟨0,8,1⟩, ⟨0,9,8⟩] : shape).map dim.stride ∧
    ∀ {α : Type} (base : Int → α) (t : List Int),
      read base (crop [⟨0,8,1⟩, ⟨0,9,8⟩] [⟨2,6⟩, ⟨3,4⟩]) t =
        read base [⟨0,8,1⟩, ⟨0,9,8⟩] t :=
  C9_crop_ranges.1 [⟨0,8,1⟩, ⟨0,9,8⟩] [⟨2,6⟩, ⟨3,4⟩] (by decide)

/-! ## Claim C4: shape optimization preserves the offset multiset -/

theorem mcoe_map {α β : Type} (f : α → β) (l : List α) :
    Multiset.map f (↑l : Multiset α) = ↑(l.map f) := rfl

theorem toNat_mul_of_nonneg {a b : Int} (ha : 0 ≤ a) (hb : 0 ≤ b) :
    (a * b).toNat = a.toNat * b.toNat := by
  obtain ⟨m, rfl⟩ := Int.eq_ofNat_of_zero_le ha
  obtain ⟨n, rfl⟩ := Int.eq_ofNat_of_zero_le hb
  rw [← Int.natCast_mul, Int.toNat_natCast, Int.toNat_natCast, Int.toNat_natCast]

theorem addDim_left_comm (d1 d2 : dim) (X : Multiset Int) :
    addDim d1 (addDim d2 X) = addDim d2 (addDim d1 X) := by
  unfold addDim
  simp only [Multiset.map_bind, Multiset.map_map]
  rw [Multiset.bind_bind]
  apply Multiset.bind_congr
  intro b _
  apply Multiset.bind_congr
  intro a _
  have hfun : ((b + ·) ∘ (a + ·)) = ((a + ·) ∘ (b + ·) : Int → Int) := by
    funext x
    simp only [Function.comp]
    ring
  rw [hfun]

theorem offsetsM_perm {l1 l2 : List dim} (p : l1.Perm l2) : offsetsM l1 = offsetsM l2 := by
  unfold offsetsM
  letI : LeftCommutative addDim := ⟨addDim_left_comm⟩
  exact p.foldr_eq _

theorem dimOffsets_fuse {d1 d2 : dim} (h : canFuse d1 d2 = true) (h1 : 0 ≤ d1.extent)
    (h2 : 0 ≤ d2.extent) :
    (dimOffsets d1).bind (fun a => (dimOffsets d2).map (a + ·)) = dimOffsets (fuse2 d1 d2) := by
  have hs2 : d2.stride = d1.stride * d1.extent := by
    simpa [canFuse] using h
  have hcast : ((d1.extent.toNat : Nat) : Int) = d1.extent := Int.toNat_of_nonneg h1
  rw [Multiset.bind_map_comm]
  have step1 : (dimOffsets d2).bind
      (fun b => ((dimRange d1).map (fun i => d1.stride * i) : Multiset Int).map
        (fun a => a + b)) =
      ↑(((dimRange d2).map (fun i => d2.stride * i)).flatMap
        (fun b => ((dimRange d1).map (fun i => d1.stride * i)).map (fun a => a + b))) :=
    Multiset.coe_bind _ _
  show (dimOffsets d2).bind
      (fun b => ((dimRange d1).map (fun i => d1.stride * i) : Multiset Int).map
        (fun a => a + b)) =
    (↑((dimRange (fuse2 d1 d2)).map (fun i => (fuse2 d1 d2).stride * i)) : Multiset Int)
  rw [step1]
  congr 1
  have hrf : dimRange (fuse2 d1 d2) =
      (List.range (d1.extent.toNat * d2.extent.toNat)).map
        (fun (n : Nat) => (d1.min + d1.extent * d2.min) + (n : Int)) := by
    show (List.range ((d1.extent * d2.extent).toNat)).map
        (fun (n : Nat) => (d1.min + d1.extent * d2.min) + (n : Int)) = _
    rw [toNat_mul_of_nonneg h1 h2]
  rw [hrf]
  show (((List.range d2.extent.toNat).map (fun (n : Nat) => d2.min + (n : Int))).map
      (fun i => d2.stride * i)).flatMap
      (fun b => (((List.range d1.extent.toNat).map
        (fun (n : Nat) => d1.min + (n : Int))).map (fun i => d1.stride * i)).map
          (fun a => a + b)) = _
  rw [← range_mul_flatMap d1.extent.toNat d2.extent.toNat]
  simp only [List.map_flatMap, List.map_map, List.flatMap_map]
  apply flatMap_congr_fun
  intro v
  apply List.map_congr_left
  intro u _
  simp only [Function.comp]
  show d1.stride * (d1.min + (u : Int)) + d2.stride * (d2.min + (v : Int)) =
    (fuse2 d1 d2).stride * (d1.min + d1.extent * d2.min + ((u + d1.extent.toNat * v : Nat) : Int))
  have hsf : (fuse2 d1 d2).stride = d1.stride := rfl
  rw [hsf, hs2]
  push_cast
  rw [hcast]
  ring

theorem addDim_fuse {d1 d2 : dim} (h : canFuse d1 d2 = true) (h1 : 0 ≤ d1.extent)
    (h2 : 0 ≤ d2.extent) (X : Multiset Int) :
    addDim d1 (addDim d2 X) = addDim (fuse2 d1 d2) X := by
  show addDim d1 (addDim d2 X) = (dimOffsets (fuse2 d1 d2)).bind (fun a => X.map (a + ·))
  rw [← dimOffsets_fuse h h1 h2, Multiset.bind_assoc]
  unfold addDim
  apply Multiset.bind_congr
  intro a _
  rw [Multiset.bind_map, Multiset.map_bind]
  apply Multiset.bind_congr
  intro b _
  rw [Multiset.map_map]
  have hfun : ((a + ·) ∘ (b + ·)) = ((a + b + ·) : Int → Int) := by
    funext x
    simp only [Function.comp]
    ring
  rw [hfun]

theorem fuseGo_offsetsM : ∀ (fuel : Nat) (l : List dim), (∀ d ∈ l, 0 ≤ d.extent) →
    offsetsM (fuseGo fuel l) = offsetsM l := by
  intro fuel
  induction fuel with
  | zero =>
    intro l _
    match l with
    | [] => rfl
    | [d] => rfl
    | d1 :: d2 :: rest => rfl
  | succ fuel ih =>
    intro l h
    match l with
    | [] => rfl
    | [d] => rfl
    | d1 :: d2 :: rest =>
      have h1 : 0 ≤ d1.extent := h d1 (by simp)
      have h2 : 0 ≤ d2.extent := h d2 (by simp)
      by_cases hf : canFuse d1 d2 = true
      · have heq : fuseGo (fuel + 1) (d1 :: d2 :: rest) = fuseGo fuel (fuse2 d1 d2 :: rest) := by
          simp [fuseGo, hf]
        rw [heq]
        have hrest : ∀ d ∈ fuse2 d1 d2 :: rest, 0 ≤ d.extent := by
          intro d hd
          rcases List.mem_cons.mp hd with rfl | hd'
          · exact mul_nonneg h1 h2
          · exact h d (by simp [hd'])
        rw [ih _ hrest]
        show addDim (fuse2 d1 d2) (offsetsM rest) = addDim d1 (addDim d2 (offsetsM rest))
        exact (addDim_fuse hf h1 h2 _).symm
      · have heq : fuseGo (fuel + 1) (d1 :: d2 :: rest) = d1 :: fuseGo fuel (d2 :: rest) := by
          simp [fuseGo, hf]
        rw [heq]
        show addDim d1 (offsetsM (fuseGo fuel (d2 :: rest))) =
          addDim d1 (addDim d2 (offsetsM rest))
        rw [ih _ (fun d hd => h d (List.mem_cons_of_mem _ hd))]
        rfl

theorem offsetsM_pad (X : Int) (n : Nat) (l : List dim) :
    offsetsM (l ++ List.replicate n ⟨0, 1, X⟩) = offsetsM l := by
  unfold offsetsM
  rw [List.foldr_append]
  have hpad : List.foldr addDim {0} (List.replicate n (⟨0, 1, X⟩ : dim)) = {0} := by
    induction n with
    | zero => rfl
    | succ m ihm =>
      rw [List.replicate_succ, List.foldr_cons, ihm]
      show addDim ⟨0, 1, X⟩ {0} = {0}
      unfold addDim
      have h1 : dimOffsets ⟨0, 1, X⟩ = ({X * (0 + ((0 : Nat) : Int))} : Multiset Int) := rfl
      rw [h1]
      simp
  rw [hpad]

theorem offsetsM_coe (s : shape) : offsetsM s = (↑(offset_list s) : Multiset Int) := by
  induction s with
  | nil => rfl
  | cons d ds ih =>
    show addDim d (offsetsM ds) = ↑(offset_list (d :: ds))
    rw [ih]
    have hlist : offset_list (d :: ds) = (indicesList ds).flatMap
        (fun t => (dimRange d).map (fun i => d.stride * i + offset ds t)) := by
      simp only [offset_list, indicesList, List.map_flatMap]
      apply flatMap_congr_fun
      intro t
      rw [List.map_map]
      apply List.map_congr_left
      intro i _
      simp [offset]
    rw [hlist, ← Multiset.coe_bind]
    show (dimOffsets d).bind (fun a => Multiset.map (a + ·) ↑(offset_list ds)) = _
    have hDo : dimOffsets d = Multiset.map (fun i => d.stride * i) ↑(dimRange d) := rfl
    have hol : (↑(offset_list ds) : Multiset Int) =
        Multiset.map (offset ds) ↑(indicesList ds) := rfl
    rw [hDo, hol, Multiset.bind_map]
    simp only [Multiset.map_map]
    rw [Multiset.bind_map_comm]
    apply Multiset.bind_congr
    intro t _
    rw [mcoe_map]
    apply congrArg
    apply List.map_congr_left
    intro i _
    simp [Function.comp]

/-- C4: `dynamic_optimize_shape` returns an equivalent shape: for every shape
with nonnegative extents, the multiset of offsets reached by the index
domain (with multiplicities) is preserved; and on the three documented
examples it returns exactly the documented shapes. -/
theorem C4_optimize :
    (∀ s : shape, (∀ d ∈ s, 0 ≤ d.extent) →
        (↑(offset_list (dynamic_optimize_shape s)) : Multiset Int) = ↑(offset_list s)) ∧
    dynamic_optimize_shape [⟨0,5,21⟩, ⟨0,7,3⟩, ⟨5,3,1⟩] =
      [⟨5,105,1⟩, ⟨0,1,105⟩, ⟨0,1,105⟩] ∧
    dynamic_optimize_shape [⟨0,5,40⟩, ⟨0,7,3⟩, ⟨0,2,1⟩] =
      [⟨0,2,1⟩, ⟨0,7,3⟩, ⟨0,5,40⟩] ∧
    dynamic_optimize_shape [⟨0,5,28⟩, ⟨0,7,4⟩, ⟨0,3,1⟩] =
      [⟨0,3,1⟩, ⟨0,35,4⟩, ⟨0,1,140⟩] := by
  refine ⟨?_, by decide, by decide, by decide⟩
  intro s h
  rw [← offsetsM_coe, ← offsetsM_coe]
  show offsetsM (fuseDims (sortDims s) ++
    List.replicate (s.length - (fuseDims (sortDims s)).length)
      ⟨0, 1, padStride (fuseDims (sortDims s))⟩) = offsetsM s
  rw [offsetsM_pad]
  have hperm := List.perm_insertionSort (fun a b => |a.stride| ≤ |b.stride|) s
  have hsorted_ext : ∀ d ∈ sortDims s, 0 ≤ d.extent := by
    intro d hd
    exact h d (hperm.subset hd)
  rw [show fuseDims (sortDims s) = fuseGo (sortDims s).length (sortDims s) from rfl,
    fuseGo_offsetsM _ _ hsorted_ext]
  exact offsetsM_perm hperm

/-- C4 witness: the preservation fact applied to the first documented
example. -/
theorem C4_optimize_witness :
    (↑(offset_list (dynamic_optimize_shape [⟨0,5,21⟩, ⟨0,7,3⟩, ⟨5,3,1⟩])) : Multiset Int) =
      ↑(offset_list [⟨0,5,21⟩, ⟨0,7,3⟩, ⟨5,3,1⟩]) :=
  C4_optimize.1 [⟨0,5,21⟩, ⟨0,7,3⟩, ⟨5,3,1⟩] (by decide)

/-! ## Claims C1 and C5: the auto-stride assignment of resolve -/

theorem minList_mem : ∀ (l : List Int), l ≠ [] → minList l ∈ l
  | [], h => absurd rfl h
  | [x], _ => by simp [minList]
  | x :: y :: xs, _ => by
    have ih := minList_mem (y :: xs) (by simp)
    simp only [minList]
    rcases le_total x (minList (y :: xs)) with hle | hle
    · rw [min_eq_left hle]
      exact List.mem_cons_self _ _
    · rw [min_eq_right hle]
      exact List.mem_cons_of_mem _ ih

theorem minList_le : ∀ (l : List Int) (x : Int), x ∈ l → minList l ≤ x
  | [], z, h => absurd h (List.not_mem_nil z)
  | [x], z, h => by
    have hz : z = x := by simpa using h
    subst hz
    simp [minList]
  | x :: y :: xs, z, h => by
    have ih := minList_le (y :: xs)
    simp only [minList]
    rcases List.mem_cons.mp h with rfl | hz
    · exact min_le_left _ _
    · exact le_trans (min_le_right _ _) (ih z hz)

theorem findStride_eq {e v : Int} {ctx : List (Int × Int)} (hvc : v ∈ candidates ctx)
    (hok : okAll v e ctx = true)
    (hmin : ∀ c ∈ candidates ctx, okAll c e ctx = true → v ≤ c) : findStride e ctx = v := by
  unfold findStride
  have hvf : v ∈ (candidates ctx).filter (fun c => okAll c e ctx) := by
    rw [List.mem_filter]
    exact ⟨hvc, hok⟩
  have h1 : minList ((candidates ctx).filter (fun c => okAll c e ctx)) ≤ v :=
    minList_le _ v hvf
  have h2 : v ≤ minList ((candidates ctx).filter (fun c => okAll c e ctx)) := by
    have hmm := minList_mem _ (List.ne_nil_of_mem hvf)
    rw [List.mem_filter] at hmm
    exact hmin _ hmm.1 hmm.2
  omega

theorem one_le_prodMax (es : List Int) : 1 ≤ prodMax es := by
  induction es with
  | nil => simp [prodMax]
  | cons e es ih =>
    have h1 : (1 : Int) ≤ max 1 e := le_max_left _ _
    have h2 : prodMax (e :: es) = max 1 e * prodMax es := by
      unfold prodMax
      rw [List.map_cons, List.prod_cons]
    rw [h2]
    nlinarith

theorem prodMax_cons (e : Int) (es : List Int) : prodMax (e :: es) = max 1 e * prodMax es := by
  unfold prodMax
  rw [List.map_cons, List.prod_cons]

theorem prodMax_append (es : List Int) (e : Int) :
    prodMax (es ++ [e]) = prodMax es * max 1 e := by
  unfold prodMax
  rw [List.map_append, List.prod_append]
  simp

theorem chainCtx_snoc : ∀ (pre : List Int) (p e : Int),
    chainCtx p (pre ++ [e]) =
      chainCtx p pre ++ [((if e ≤ 1 then 1 else p * prodMax pre), e)] := by
  intro pre
  induction pre with
  | nil =>
    intro p e
    have h : prodMax ([] : List Int) = 1 := rfl
    simp [chainCtx, h]
  | cons a pre ih =>
    intro p e
    show ((if a ≤ 1 then 1 else p), a) :: chainCtx (p * max 1 a) (pre ++ [e]) =
      ((if a ≤ 1 then 1 else p), a) ::
        (chainCtx (p * max 1 a) pre ++ [((if e ≤ 1 then 1 else p * prodMax (a :: pre)), e)])
    rw [ih]
    have hm : (p * max 1 a) * prodMax pre = p * prodMax (a :: pre) := by
      rw [prodMax_cons]
      ring
    rw [hm]

theorem chainCtx_spec : ∀ (es : List Int) (p : Int), 1 ≤ p → ∀ q ∈ chainCtx p es,
    1 ≤ q.1 ∧ (q.2 ≤ 1 → q.1 = 1) ∧ (2 ≤ q.2 → q.1 * q.2 ≤ p * prodMax es) := by
  intro es
  induction es with
  | nil =>
    intro p hp q hq
    simp [chainCtx] at hq
  | cons e es ih =>
    intro p hp q hq
    have hpm : (1 : Int) ≤ prodMax es := one_le_prodMax es
    rcases List.mem_cons.mp hq with rfl | hq'
    · by_cases he : e ≤ 1
      · exact ⟨by simp [he], fun _ => by simp [he], fun h2 => by omega⟩
      · have he2 : (2 : Int) ≤ e := by omega
        refine ⟨by simpa [he] using hp, fun h1 => by omega, fun _ => ?_⟩
        simp only [if_neg he]
        have hmax : max 1 e = e := max_eq_right (by omega)
        rw [prodMax_cons, hmax]
        exact mul_le_mul_of_nonneg_left
          (le_mul_of_one_le_right (by omega : (0 : Int) ≤ e) hpm) (by omega : (0 : Int) ≤ p)
    · have h1max : (1 : Int) ≤ max 1 e := le_max_left _ _
      have hp' : (1 : Int) ≤ p * max 1 e := by nlinarith
      obtain ⟨ha, hb, hc⟩ := ih (p * max 1 e) hp' q hq'
      refine ⟨ha, hb, fun h2 => ?_⟩
      have hq12 := hc h2
      rw [prodMax_cons]
      calc q.1 * q.2 ≤ p * max 1 e * prodMax es := hq12
        _ = p * (max 1 e * prodMax es) := by ring

theorem one_le_candidates {ctx : List (Int × Int)} : ∀ c ∈ candidates ctx, 1 ≤ c := by
  intro c hc
  unfold candidates at hc
  rcases List.mem_cons.mp hc with rfl | h
  · exact le_refl 1
  · obtain ⟨p, _, rfl⟩ := List.mem_map.mp h
    exact le_max_left _ _

theorem prodMax_witness : ∀ pre : List Int, prodMax pre = 1 ∨
    ∃ q ∈ chainCtx 1 pre, 1 ≤ q.1 ∧ 2 ≤ q.2 ∧ q.1 * q.2 = prodMax pre := by
  intro pre
  induction pre using List.reverseRecOn with
  | nil => exact Or.inl rfl
  | append_singleton l a ih =>
    rw [prodMax_append, chainCtx_snoc]
    by_cases ha : a ≤ 1
    · have hmax : max 1 a = 1 := max_eq_left (by omega)
      rw [hmax, mul_one]
      rcases ih with h1 | ⟨q, hq, hq1, hq2, hq3⟩
      · exact Or.inl h1
      · exact Or.inr ⟨q, List.mem_append_left _ hq, hq1, hq2, hq3⟩
    · have ha2 : (2 : Int) ≤ a := by omega
      refine Or.inr ⟨(1 * prodMax l, a), ?_, ?_, ha2, ?_⟩
      · apply List.mem_append_right
        rw [if_neg ha]
        exact List.mem_singleton.mpr rfl
      · have := one_le_prodMax l
        omega
      · have hmax : max 1 a = a := max_eq_right (by omega)
        rw [hmax, one_mul]

theorem okAll_target (pre : List Int) (e : Int) :
    okAll (if e ≤ 1 then 1 else prodMax pre) e (chainCtx 1 pre) = true := by
  unfold okAll
  rw [List.all_eq_true]
  intro q hq
  obtain ⟨hq1, hq2, hq3⟩ := chainCtx_spec pre 1 (le_refl 1) q hq
  unfold strideOk
  rw [Bool.or_eq_true, decide_eq_true_eq, decide_eq_true_eq]
  have hv1 : (1 : Int) ≤ (if e ≤ 1 then 1 else prodMax pre) := by
    split
    · exact le_refl 1
    · exact one_le_prodMax pre
  rcases le_or_lt q.2 1 with hle | hgt
  · left
    have hq1e : q.1 = 1 := hq2 hle
    rw [hq1e, abs_one, one_mul]
    omega
  · have hq22 : (2 : Int) ≤ q.2 := by omega
    have hbound := hq3 hq22
    rw [one_mul] at hbound
    have habs : |q.1| = q.1 := abs_of_pos (by omega)
    by_cases he : e ≤ 1
    · right
      rw [if_pos he, habs, one_mul]
      omega
    · left
      rw [if_neg he, habs]
      exact hbound

theorem target_mem_candidates (pre : List Int) (e : Int) :
    (if e ≤ 1 then 1 else prodMax pre) ∈ candidates (chainCtx 1 pre) := by
  by_cases he : e ≤ 1
  · rw [if_pos he]
    exact List.mem_cons_self _ _
  · rw [if_neg he]
    rcases prodMax_witness pre with h1 | ⟨q, hq, hq1, hq2, hq3⟩
    · rw [h1]
      exact List.mem_cons_self _ _
    · unfold candidates
      apply List.mem_cons_of_mem
      have hval : max 1 (|q.1| * q.2) = prodMax pre := by
        rw [abs_of_pos (by omega : (0 : Int) < q.1), hq3]
        exact max_eq_right (one_le_prodMax pre)
      rw [← hval]
      exact List.mem_map_of_mem _ hq

theorem chain_min : ∀ (es : List Int) (p c e : Int), 1 ≤ p → 1 ≤ c → 2 ≤ e →
    okAll c e (chainCtx p es) = true → c < p * prodMax es → c * e ≤ p ∨ c < p := by
  intro es
  induction es with
  | nil =>
    intro p c e hp hc he hok hlt
    right
    have h0 : prodMax ([] : List Int) = 1 := rfl
    rw [h0, mul_one] at hlt
    exact hlt
  | cons e' es ih =>
    intro p c e hp hc he hok hlt
    simp only [chainCtx, okAll, List.all_cons, Bool.and_eq_true] at hok
    obtain ⟨hhead, htail⟩ := hok
    have h1max : (1 : Int) ≤ max 1 e' := le_max_left _ _
    have hp' : (1 : Int) ≤ p * max 1 e' := by nlinarith
    have hlt' : c < (p * max 1 e') * prodMax es := by
      rw [prodMax_cons] at hlt
      calc c < p * (max 1 e' * prodMax es) := hlt
        _ = (p * max 1 e') * prodMax es := by ring
    have IH := ih (p * max 1 e') c e hp' hc he htail hlt'
    by_cases he' : e' ≤ 1
    · have hmaxe : max 1 e' = 1 := max_eq_left (by omega)
      rw [hmaxe, mul_one] at IH
      exact IH
    · have hmaxe : max 1 e' = e' := max_eq_right (by omega)
      rw [hmaxe] at IH
      unfold strideOk at hhead
      rw [Bool.or_eq_true, decide_eq_true_eq, decide_eq_true_eq] at hhead
      simp only [if_neg he'] at hhead
      have hpabs : |p| = p := abs_of_pos (by omega)
      rw [hpabs] at hhead
      rcases hhead with hA | hB
      · rcases IH with hC | hD
        · exfalso
          have hce : c * e ≤ c := le_trans hC hA
          nlinarith
        · exact absurd hA (not_le.mpr hD)
      · exact Or.inl hB

theorem target_min (pre : List Int) (e : Int) :
    ∀ c ∈ candidates (chainCtx 1 pre), okAll c e (chainCtx 1 pre) = true →
      (if e ≤ 1 then 1 else prodMax pre) ≤ c := by
  intro c hc hok
  by_cases he : e ≤ 1
  · rw [if_pos he]
    exact one_le_candidates c hc
  · rw [if_neg he]
    by_contra hlt
    push_neg at hlt
    have hc1 : (1 : Int) ≤ c := one_le_candidates c hc
    have he2 : (2 : Int) ≤ e := by omega
    have hres := chain_min pre 1 c e (le_refl 1) hc1 he2 hok (by rw [one_mul]; exact hlt)
    rcases hres with hA | hB
    · nlinarith
    · omega

theorem findStride_chain (pre : List Int) (e : Int) :
    findStride e (chainCtx 1 pre) = if e ≤ 1 then 1 else prodMax pre :=
  findStride_eq (target_mem_candidates pre e) (okAll_target pre e) (target_min pre e)

theorem knownDims_nil : ∀ {l : List udim}, (∀ d ∈ l, d.stride = none) → knownDims l = [] := by
  intro l
  induction l with
  | nil => intro h; rfl
  | cons d l ih =>
    intro h
    have hd := h d (by simp)
    unfold knownDims
    rw [List.filterMap_cons, hd]
    show knownDims l = []
    exact ih (fun x hx => h x (List.mem_cons_of_mem _ hx))

theorem resolve_unknown : ∀ (l : List udim) (pre : List Int), (∀ d ∈ l, d.stride = none) →
    resolveAux (chainCtx 1 pre) l =
      List.zipWith (fun (d : udim) st => dim.mk d.min d.extent st) l
        (autoStrides pre (l.map udim.extent)) := by
  intro l
  induction l with
  | nil => intro pre _; rfl
  | cons d l ih =>
    intro pre h
    have hd := h d (by simp)
    have hrest : ∀ x ∈ l, x.stride = none := fun x hx => h x (List.mem_cons_of_mem _ hx)
    simp only [resolveAux, hd]
    rw [knownDims_nil hrest, List.append_nil, findStride_chain]
    have hsnoc : chainCtx 1 pre ++ [((if d.extent ≤ 1 then 1 else prodMax pre), d.extent)] =
        chainCtx 1 (pre ++ [d.extent]) := by
      rw [chainCtx_snoc]
      have h1 : (1 : Int) * prodMax pre = prodMax pre := one_mul _
      rw [h1]
    rw [hsnoc, ih (pre ++ [d.extent]) hrest]
    rfl

theorem autoStrides_ge2 : ∀ (es pre : List Int), (∀ e ∈ es, 2 ≤ e) →
    autoStrides pre es = row_major (prodMax pre) es := by
  intro es
  induction es with
  | nil => intro pre _; rfl
  | cons e es ih =>
    intro pre h
    have he := h e (by simp)
    show (if e ≤ 1 then 1 else prodMax pre) :: autoStrides (pre ++ [e]) es =
      prodMax pre :: row_major (prodMax pre * max 1 e) es
    rw [if_neg (by omega), ih (pre ++ [e]) (fun x hx => h x (List.mem_cons_of_mem _ hx)),
      prodMax_append]

theorem autoStrides_prefix : ∀ (es1 es2 pre : List Int),
    (∀ e ∈ es1, e ≤ 1) → (∀ e ∈ es2, 2 ≤ e) → prodMax pre = 1 →
    autoStrides pre (es1 ++ es2) = row_major 1 (es1 ++ es2) := by
  intro es1
  induction es1 with
  | nil =>
    intro es2 pre h1 h2 hp
    rw [List.nil_append, autoStrides_ge2 es2 pre h2, hp]
  | cons e es1 ih =>
    intro es2 pre h1 h2 hp
    have he := h1 e (by simp)
    show (if e ≤ 1 then 1 else prodMax pre) :: autoStrides (pre ++ [e]) (es1 ++ es2) =
      1 :: row_major (1 * max 1 e) (es1 ++ es2)
    rw [if_pos he]
    have hmax : max 1 e = 1 := max_eq_left (by omega)
    have hp' : prodMax (pre ++ [e]) = 1 := by rw [prodMax_append, hmax, hp, mul_one]
    rw [hmax, mul_one,
      ih es2 (pre ++ [e]) (fun x hx => h1 x (List.mem_cons_of_mem _ hx)) h2 hp']

/-- C1: "When a shape's dynamic strides are left unspecified, `resolve` assigns them
innermost-first so that each unknown dimension receives the smallest stride keeping it
distinct from all already-placed dimensions; for a shape whose dimensions all have unknown
strides this yields the row-major packing stride_k = prod of earlier extents."
The universal part is proved under the amended proviso that the dimensions of extent at
most one form a prefix of the shape (the counterexample `C1_row_major_counterexample`
shows the unrestricted sentence is false); the three concrete conjuncts reproduce the
interleaved-stride expectations of the auto_strides test (src/test/shape.cpp), where the
unknown dim is placed between, beside, or around the known strides 20/15/14 and 1. -/
theorem C1_resolve_auto_strides :
    (∀ l : List udim, (∀ d ∈ l, d.stride = none) →
      (∃ es1 es2 : List Int, l.map udim.extent = es1 ++ es2 ∧
        (∀ e ∈ es1, e ≤ 1) ∧ (∀ e ∈ es2, 2 ≤ e)) →
      resolve l = List.zipWith (fun (d : udim) st => dim.mk d.min d.extent st) l
        (row_major 1 (l.map udim.extent))) ∧
    resolve [⟨0,5,none⟩, ⟨0,4,some 20⟩, ⟨0,3,some 1⟩] = [⟨0,5,3⟩, ⟨0,4,20⟩, ⟨0,3,1⟩] ∧
    resolve [⟨0,5,none⟩, ⟨0,4,some 15⟩, ⟨0,3,some 1⟩] = [⟨0,5,3⟩, ⟨0,4,15⟩, ⟨0,3,1⟩] ∧
    resolve [⟨0,5,none⟩, ⟨0,4,some 14⟩, ⟨0,3,some 1⟩] = [⟨0,5,56⟩, ⟨0,4,14⟩, ⟨0,3,1⟩] := by
  refine ⟨?_, by decide, by decide, by decide⟩
  intro l hnone hex
  obtain ⟨es1, es2, heq, h1, h2⟩ := hex
  have hres : resolve l = List.zipWith (fun (d : udim) st => dim.mk d.min d.extent st) l
      (autoStrides [] (l.map udim.extent)) := resolve_unknown l [] hnone
  rw [hres, heq, autoStrides_prefix es1 es2 [] h1 h2 rfl]

theorem C1_resolve_auto_strides_witness :
    resolve [⟨0,5,none⟩, ⟨0,10,none⟩] =
      List.zipWith (fun (d : udim) st => dim.mk d.min d.extent st)
        [⟨0,5,none⟩, ⟨0,10,none⟩]
        (row_major 1 (([⟨0,5,none⟩, ⟨0,10,none⟩] : List udim).map udim.extent)) :=
  C1_resolve_auto_strides.1 [⟨0,5,none⟩, ⟨0,10,none⟩] (by decide)
    ⟨[], [5, 10], by decide, by decide, by decide⟩

theorem resolveAux_min_extent : ∀ (l : List udim) (ctx : List (Int × Int)),
    (resolveAux ctx l).map dim.min = l.map udim.min ∧
    (resolveAux ctx l).map dim.extent = l.map udim.extent := by
  intro l
  induction l with
  | nil => intro ctx; exact ⟨rfl, rfl⟩
  | cons d l ih =>
    intro ctx
    cases hd : d.stride with
    | some st =>
      simp only [resolveAux, hd]
      constructor
      · show d.min :: (resolveAux _ l).map dim.min = d.min :: l.map udim.min
        rw [(ih _).1]
      · show d.extent :: (resolveAux _ l).map dim.extent = d.extent :: l.map udim.extent
        rw [(ih _).2]
    | none =>
      simp only [resolveAux, hd]
      constructor
      · show d.min :: (resolveAux _ l).map dim.min = d.min :: l.map udim.min
        rw [(ih _).1]
      · show d.extent :: (resolveAux _ l).map dim.extent = d.extent :: l.map udim.extent
        rw [(ih _).2]

theorem zipWith_fst {α β γ : Type} (g : α → γ) : ∀ (l1 : List α) (l2 : List β),
    l1.length = l2.length → List.zipWith (fun a _ => g a) l1 l2 = l1.map g := by
  intro l1
  induction l1 with
  | nil => intro l2 _; rfl
  | cons a l1 ih =>
    intro l2 h
    cases l2 with
    | nil => simp at h
    | cons b l2 =>
      simp only [List.zipWith_cons_cons, List.map_cons]
      rw [ih l2 (by simpa using h)]

theorem zipWith_snd {α β : Type} : ∀ (l1 : List α) (l2 : List β),
    l1.length = l2.length → List.zipWith (fun _ b => b) l1 l2 = l2 := by
  intro l1
  induction l1 with
  | nil =>
    intro l2 h
    cases l2 with
    | nil => rfl
    | cons b l2 => simp at h
  | cons a l1 ih =>
    intro l2 h
    cases l2 with
    | nil => simp at h
    | cons b l2 =>
      simp only [List.zipWith_cons_cons]
      rw [ih l2 (by simpa using h)]

theorem make_compact_static : ∀ (s : shape) (static : List Bool) (ctx : List (Int × Int)),
    List.Forall₂ (fun (p : dim × Bool) (r : dim) => p.2 = true → r.stride = p.1.stride)
      (s.zip static)
      (resolveAux ctx (List.zipWith (fun (d : dim) (b : Bool) =>
        udim.mk d.min d.extent (if b then some d.stride else none)) s static)) := by
  intro s
  induction s with
  | nil =>
    intro static ctx
    cases static with
    | nil => exact List.Forall₂.nil
    | cons b bs => exact List.Forall₂.nil
  | cons d s ih =>
    intro static ctx
    cases static with
    | nil => exact List.Forall₂.nil
    | cons b bs =>
      cases b with
      | true => exact List.Forall₂.cons (fun _ => rfl) (ih bs _)
      | false => exact List.Forall₂.cons (fun h => nomatch h) (ih bs _)

theorem autoStrides_length : ∀ (es pre : List Int), (autoStrides pre es).length = es.length := by
  intro es
  induction es with
  | nil => intro pre; rfl
  | cons e es ih =>
    intro pre
    simp only [autoStrides, List.length_cons, ih]

theorem autoStrides_pos : ∀ (es pre : List Int), ∀ st ∈ autoStrides pre es, 1 ≤ st := by
  intro es
  induction es with
  | nil =>
    intro pre st h
    simp [autoStrides] at h
  | cons e es ih =>
    intro pre st h
    rcases List.mem_cons.mp h with rfl | h'
    · split
      · exact le_refl 1
      · exact one_le_prodMax pre
    · exact ih (pre ++ [e]) st h'

theorem telescope_sum : ∀ (es pre : List Int), (∀ e ∈ es, 1 ≤ e) →
    (List.zipWith (fun e st => st * (e - 1)) es (autoStrides pre es)).sum =
      prodMax pre * prodMax es - prodMax pre := by
  intro es
  induction es with
  | nil =>
    intro pre _
    show (0 : Int) = prodMax pre * prodMax [] - prodMax pre
    have h0 : prodMax ([] : List Int) = 1 := rfl
    rw [h0]
    ring
  | cons e es ih =>
    intro pre h
    have he := h e (by simp)
    show (if e ≤ 1 then 1 else prodMax pre) * (e - 1) +
        (List.zipWith (fun e st => st * (e - 1)) es (autoStrides (pre ++ [e]) es)).sum =
      prodMax pre * prodMax (e :: es) - prodMax pre
    rw [ih (pre ++ [e]) (fun x hx => h x (List.mem_cons_of_mem _ hx)), prodMax_append,
      prodMax_cons]
    by_cases he1 : e ≤ 1
    · have he' : e = 1 := by omega
      subst he'
      rw [if_pos he1]
      have hm : max (1 : Int) 1 = 1 := max_self 1
      rw [hm]
      ring
    · rw [if_neg he1]
      have hm : max 1 e = e := max_eq_right (by omega)
      rw [hm]
      ring

theorem flats_sub : ∀ (s : shape), (∀ d ∈ s, 0 ≤ d.stride) →
    flat_max s - flat_min s = (s.map (fun d => d.stride * (d.extent - 1))).sum := by
  intro s
  induction s with
  | nil => intro _; rfl
  | cons d ds ih =>
    intro h
    have hd := h d (by simp)
    have hds := ih (fun x hx => h x (List.mem_cons_of_mem _ hx))
    simp only [flat_max, flat_min, List.map_cons, List.sum_cons] at *
    have hdm : d.flat_max - d.flat_min = d.stride * (d.extent - 1) := by
      unfold dim.flat_max dim.flat_min
      rw [if_pos hd, if_pos hd]
      ring
    omega

theorem zipWith_replicate_false : ∀ (s : shape),
    List.zipWith (fun (d : dim) (b : Bool) =>
      udim.mk d.min d.extent (if b then some d.stride else none)) s
      (List.replicate s.length false) = s.map (fun d => udim.mk d.min d.extent none) := by
  intro s
  induction s with
  | nil => rfl
  | cons d s ih =>
    simp only [List.length_cons, List.replicate_succ, List.zipWith_cons_cons, List.map_cons]
    rw [ih]
    rfl

theorem make_compact_compact (s : shape) (hext : ∀ d ∈ s, 1 ≤ d.extent) :
    is_compact (make_compact (List.replicate s.length false) s) = true ∧
    is_one_to_one (make_compact (List.replicate s.length false) s) = true := by
  have h1 : make_compact (List.replicate s.length false) s =
      resolve (s.map (fun d => udim.mk d.min d.extent none)) := by
    unfold make_compact
    rw [zipWith_replicate_false]
  have hnone : ∀ d ∈ s.map (fun d => udim.mk d.min d.extent none), d.stride = none := by
    intro d hd
    obtain ⟨d0, _, rfl⟩ := List.mem_map.mp hd
    rfl
  have h2 : resolve (s.map (fun d => udim.mk d.min d.extent none)) =
      List.zipWith (fun (d : udim) st => dim.mk d.min d.extent st)
        (s.map (fun d => udim.mk d.min d.extent none))
        (autoStrides [] ((s.map (fun d => udim.mk d.min d.extent none)).map udim.extent)) :=
    resolve_unknown _ [] hnone
  rw [h1, h2]
  set us : List udim := s.map (fun d => udim.mk d.min d.extent none) with hus
  set es : List Int := us.map udim.extent with hes
  set R : shape := List.zipWith (fun (d : udim) st => dim.mk d.min d.extent st) us
    (autoStrides [] es) with hR
  have hes' : es = s.map dim.extent := by
    rw [hes, hus, List.map_map]
    rfl
  have hese : ∀ e ∈ es, 1 ≤ e := by
    intro e he
    rw [hes'] at he
    obtain ⟨d0, hd0, rfl⟩ := List.mem_map.mp he
    exact hext d0 hd0
  have hlen : us.length = (autoStrides [] es).length := by
    rw [autoStrides_length, hes, hus]
    simp
  have hRext : R.map dim.extent = es := by
    rw [hR, List.map_zipWith]
    exact zipWith_fst udim.extent us _ hlen
  have hRstr_map : R.map dim.stride = autoStrides [] es := by
    rw [hR, List.map_zipWith]
    exact zipWith_snd us _ hlen
  have hRstr : ∀ d ∈ R, 1 ≤ d.stride := by
    intro d hd
    have hmem : d.stride ∈ autoStrides [] es := by
      rw [← hRstr_map]
      exact List.mem_map_of_mem _ hd
    exact autoStrides_pos es [] _ hmem
  have hsub : flat_max R - flat_min R = (R.map (fun d => d.stride * (d.extent - 1))).sum :=
    flats_sub R (fun d hd => by have := hRstr d hd; omega)
  have hzip : R.map (fun d => d.stride * (d.extent - 1)) =
      List.zipWith (fun e st => st * (e - 1)) es (autoStrides [] es) := by
    rw [hR, List.map_zipWith, hes]
    exact (List.zipWith_map_left us _ udim.extent (fun e st => st * (e - 1))).symm
  have hfe : flat_extent R = prodMax es := by
    unfold flat_extent
    rw [hsub, hzip, telescope_sum es [] hese]
    have h0 : prodMax ([] : List Int) = 1 := rfl
    rw [h0]
    ring
  have hmaxid : es.map (fun e => max 1 e) = es := by
    conv_rhs => rw [← List.map_id es]
    apply List.map_congr_left
    intro e he
    exact max_eq_right (hese e he)
  have hsize : size R = prodMax es := by
    unfold size
    rw [hRext]
    unfold prodMax
    rw [hmaxid]
  constructor
  · unfold is_compact
    rw [hfe, hsize]
    simp
  · unfold is_one_to_one
    rw [hfe, hsize]
    simp

/-- C5: "make_compact produces a shape with the same mins and extents whose dynamic
(non-static) strides are reassigned to make the shape compact and one-to-one, while
static strides are retained unchanged." The mins/extents preservation and the static
retention hold for every shape; the compact-and-one-to-one conclusion is proved under
the amended provisos that no stride is static and every extent is at least one (the
counterexample `C5_make_compact_counterexample` shows it fails otherwise: a retained
static stride 5 on a single dim of extent 3, and an extent-0 dim, each defeat
compactness). The last conjunct reproduces the shape_make_compact test expectation
make_compact({{3,5,8},{1,4,1}}) = {{3,5,1},{1,4,5}} (src/test/shape.cpp). -/
theorem C5_make_compact :
    (∀ (s : shape) (static : List Bool), static.length = s.length →
      (make_compact static s).map dim.min = s.map dim.min ∧
      (make_compact static s).map dim.extent = s.map dim.extent ∧
      List.Forall₂ (fun (p : dim × Bool) (r : dim) => p.2 = true → r.stride = p.1.stride)
        (s.zip static) (make_compact static s)) ∧
    (∀ s : shape, (∀ d ∈ s, 1 ≤ d.extent) →
      is_compact (make_compact (List.replicate s.length false) s) = true ∧
      is_one_to_one (make_compact (List.replicate s.length false) s) = true) ∧
    make_compact [false, false] [⟨3,5,8⟩, ⟨1,4,1⟩] = [⟨3,5,1⟩, ⟨1,4,5⟩] := by
  refine ⟨?_, fun s hext => make_compact_compact s hext, by decide⟩
  intro s static hlen
  refine ⟨?_, ?_, make_compact_static s static []⟩
  · unfold make_compact resolve
    rw [(resolveAux_min_extent _ _).1, List.map_zipWith]
    exact zipWith_fst dim.min s static hlen.symm
  · unfold make_compact resolve
    rw [(resolveAux_min_extent _ _).2, List.map_zipWith]
    exact zipWith_fst dim.extent s static hlen.symm

theorem C5_make_compact_witness :
    is_compact (make_compact
      (List.replicate ([⟨3,5,8⟩, ⟨1,4,1⟩] : shape).length false) [⟨3,5,8⟩, ⟨1,4,1⟩]) = true ∧
    is_one_to_one (make_compact
      (List.replicate ([⟨3,5,8⟩, ⟨1,4,1⟩] : shape).length false) [⟨3,5,8⟩, ⟨1,4,1⟩]) = true :=
  C5_make_compact.2.1 [⟨3,5,8⟩, ⟨1,4,1⟩] (by decide)

/-- C8 counterexample: the shape with two dims `{0,2,1}` has
`size() = 4 > 3 = flat_extent()` (two dims of the same stride collide), so
`size() ≤ flat_extent()` does not hold for every shape. -/
theorem C8_counterexample :
    ¬ size [(⟨0,2,1⟩ : dim), ⟨0,2,1⟩] ≤ flat_extent [⟨0,2,1⟩, ⟨0,2,1⟩] := by
  decide

end nda
